import Mathlib

/-!
Shallow embedding of peregrinearb/async_find_opportunities.py.

The Python module has two resolvers:

* OpportunityFinder: the single-market resolver.  It races one fetch_ticker
  per exchange and keeps a running highest bid / lowest ask.
* SuperOpportunityFinder: the multi-market orchestrator.  It races one
  fetch_order_book per exchange per market, retries on rate limiting, prunes
  exchanges that no longer support a market, and records USD rates.

Prices are modelled as rationals extended with the two float infinities
(the code uses float literals -1 and float("Inf") as sentinels).  The
cooperative asyncio scheduling is modelled by making the completion order of
concurrently launched fetches an explicit parameter (a list of exchange
names), and by giving each restart round of a market resolution an explicit
snapshot of the shared rate-limit tracker as it stands when the round begins
(concurrent tasks mutate the tracker during awaits).  Wall-clock sleeps and
logging calls have no observable effect here and are omitted, as is the
_find_opportunity_calls counter, which is only used to compute a start
delay.  The Collections container lives in utils.py, which is not part of
the sources; its operations are modelled from the spec where noted.
-/

/-- Extended price domain: Python floats restricted to the values the module
actually manipulates, namely rationals together with -inf and +inf. -/
inductive EPrice where
  | negInf : EPrice
  | fin : ℚ → EPrice
  | posInf : EPrice
deriving DecidableEq

/-- Strict comparison on extended prices, mirroring Python float comparison. -/
def EPrice.blt : EPrice → EPrice → Bool
  | .negInf, .negInf => false
  | .negInf, .fin _ => true
  | .negInf, .posInf => true
  | .fin _, .negInf => false
  | .fin a, .fin b => decide (a < b)
  | .fin _, .posInf => true
  | .posInf, _ => false

/-- One level of an order book: a price and a volume, as in the
[[price, volume], ...] lists returned by fetch_order_book. -/
structure BookEntry where
  price : ℚ
  volume : ℚ
deriving DecidableEq

/-- An order book as returned by fetch_order_book: bids and asks, best first. -/
structure OrderBook where
  bids : List BookEntry
  asks : List BookEntry
deriving DecidableEq

/-- One side of an opportunity: the dicts
opportunity["highest_bid"] and opportunity["lowest_ask"] built in
SuperOpportunityFinder._find_opportunity. -/
structure PriceQuote where
  price : EPrice
  exchange : Option String
  volume : ℚ
deriving DecidableEq

/-- The opportunity dict built in SuperOpportunityFinder._find_opportunity.
The wall-clock datetime field is not modelled. -/
structure Opportunity where
  highest_bid : PriceQuote
  lowest_ask : PriceQuote
  ticker : String
  id : Nat
deriving DecidableEq

/-- The opportunity as first created in _find_opportunity: sentinel price -1
for the highest bid, +inf for the lowest ask, no exchange, zero volume. -/
def initialOpportunity (market_name : String) (current_opp_id : Nat) : Opportunity :=
  { highest_bid := ⟨.fin (-1), none, 0⟩
    lowest_ask := ⟨.posInf, none, 0⟩
    ticker := market_name
    id := current_opp_id }

/-! ## Single-market resolver: OpportunityFinder -/

/-- One side of the OpportunityFinder state: self.highest_bid and
self.lowest_ask are dicts holding only a price and an exchange. -/
structure TickerQuote where
  price : EPrice
  exchange : Option String
deriving DecidableEq

/-- The mutable aggregation state of an OpportunityFinder instance. -/
structure FinderState where
  highest_bid : TickerQuote
  lowest_ask : TickerQuote
deriving DecidableEq

/-- The state set up by OpportunityFinder.__init__: price sentinel -1 for the
highest bid and +inf for the lowest ask, no exchange recorded. -/
def initialFinderState : FinderState :=
  ⟨⟨.fin (-1), none⟩, ⟨.posInf, none⟩⟩

/-- An element of OpportunityFinder.exchange_list: an identifier together
with whether the object satisfies isinstance(exchange, ccxt.Exchange). -/
structure ExchangeHandle where
  id : String
  isCcxtExchange : Bool
deriving DecidableEq

/-- The outcome the network produces for one fetch_ticker call: a quote, or a
raised exception. -/
inductive TickerResult where
  | ok (bid ask : ℚ)
  | err
deriving DecidableEq

/-- How one _test_bid_and_ask task ends: normal completion, the ValueError
raised on a non-ccxt handle, or an exception escaping fetch_ticker. -/
inductive TaskOutcome where
  | completed
  | raisedValueError
  | raisedFetchError
deriving DecidableEq

/-- Connection bookkeeping for one _test_bid_and_ask task: how many times the
exchange connection was opened (fetch_ticker was entered) and how many times
exchange.close() ran, together with how the task ended. -/
structure TaskEffect where
  opens : Nat
  closes : Nat
  outcome : TaskOutcome
deriving DecidableEq

/-- OpportunityFinder._test_bid_and_ask.  The isinstance check raises before
any fetch; a fetch_ticker exception propagates before exchange.close() is
reached; on success the connection is closed once and then the running
highest bid / lowest ask are updated with strict comparisons. -/
def testBidAndAsk (env : String → TickerResult) (exchange : ExchangeHandle)
    (st : FinderState) : FinderState × TaskEffect :=
  if exchange.isCcxtExchange = false then
    (st, ⟨0, 0, .raisedValueError⟩)
  else
    match env exchange.id with
    | .err => (st, ⟨1, 0, .raisedFetchError⟩)
    | .ok bid ask =>
        let st1 : FinderState :=
          if st.highest_bid.price.blt (.fin bid) then
            { st with highest_bid := ⟨.fin bid, some exchange.id⟩ }
          else st
        let st2 : FinderState :=
          if (EPrice.fin ask).blt st1.lowest_ask.price then
            { st1 with lowest_ask := ⟨.fin ask, some exchange.id⟩ }
          else st1
        (st2, ⟨1, 1, .completed⟩)

/-- The effect of awaiting asyncio.wait on the _test_bid_and_ask tasks, with
the tasks completing in the given order: every task runs to its end and its
exception, if any, is stored in the task object and never re-raised. -/
def runTestTasks (env : String → TickerResult) (st : FinderState) :
    List ExchangeHandle → FinderState × List TaskEffect
  | [] => (st, [])
  | exchange :: rest =>
      let r := testBidAndAsk env exchange st
      let r' := runTestTasks env r.1 rest
      (r'.1, r.2 :: r'.2)

/-- The dict returned by OpportunityFinder.find_min_max. -/
structure MinMaxResult where
  highest_bid : TickerQuote
  lowest_ask : TickerQuote
  ticker : String
deriving DecidableEq

/-- OpportunityFinder.find_min_max: awaits asyncio.wait over all
_test_bid_and_ask tasks (which swallows any task exceptions) and then always
returns the snapshot dict. -/
def findMinMax (env : String → TickerResult) (market_name : String)
    (completionOrder : List ExchangeHandle) : MinMaxResult :=
  ⟨(runTestTasks env initialFinderState completionOrder).1.highest_bid,
   (runTestTasks env initialFinderState completionOrder).1.lowest_ask,
   market_name⟩

/-! ## String helpers for the USD test -/

/-- Python str.find as an option: index of the first occurrence of pat in s. -/
def findSubIdx (s pat : List Char) : Option Nat :=
  match s with
  | [] => if pat = [] then some 0 else none
  | _ :: rest =>
      if List.isPrefixOf pat s then some 0
      else (findSubIdx rest pat).map (· + 1)

/-- The test market_name.find("USD") > 0 from
SuperOpportunityFinder.exchange_fetch_order_book (str.find returns -1 when
the substring is absent, so this holds exactly when "USD" occurs at a
positive index). -/
def usdFindPos (market_name : String) : Bool :=
  match findSubIdx market_name.data "USD".data with
  | some i => decide (0 < i)
  | none => false

/-- Written from the words of the spec, for comparison with usdFindPos: a
market is "quoted directly against a USD-denominated quote currency" when its
symbol has the form BASE/QUOTE and QUOTE begins with USD (USD, USDT, USDC and
so on). -/
def usdQuotedSpec (market_name : String) : Bool :=
  let q := (market_name.data.dropWhile (fun c => c != '/')).drop 1
  decide (q ≠ []) && List.isPrefixOf "USD".data q

/-! ## The Market Collection and the USD rate table -/

/-- The Market Collection: market name to list of exchange names, with the
dict invariant that keys are unique.  The underlying dict of the Collections
wrapper from utils.py. -/
abbrev MarketCollection := List (String × List String)

/-- Dict lookup on the Market Collection. -/
def lookupCollection : MarketCollection → String → Option (List String)
  | [], _ => none
  | (k, v) :: rest, m => if k = m then some v else lookupCollection rest m

/-- Modelled from the spec: the Collections wrapper from utils.py is not in
the sources.  Deleting a market key, as done by del collections[market] in
get_opportunities, removes the entry of that market. -/
def delFromCollections (c : MarketCollection) (market_name : String) : MarketCollection :=
  c.filter (fun p => p.1 != market_name)

/-- Modelled from the spec: Collections.remove_exchange_from_market from
utils.py is not in the sources.  Per the spec the Market Collection maps a
market to the ordered set of exchanges believed to support it, is "mutated by
removal (never addition) when an exchange signals it no longer supports a
market", and a market whose last exchange is pruned disappears from the
collection entirely (the code then sees market_name not in self.collections). -/
def removeExchangeFromMarket (c : MarketCollection) (exchange_name market_name : String) :
    MarketCollection :=
  c.filterMap (fun p =>
    if p.1 = market_name then
      if p.2.filter (fun e => e != exchange_name) = [] then none
      else some (p.1, p.2.filter (fun e => e != exchange_name))
    else some p)

/-- Whether the entry of market m in the collection lists exchange e. -/
def pairMemB (c : MarketCollection) (m e : String) : Bool :=
  c.any (fun p => p.1 == m && p.2.contains e)

/-- Dict assignment inner[m] = p on the inner dict of the USD rate table. -/
def setAssocQ : List (String × ℚ) → String → ℚ → List (String × ℚ)
  | [], m, p => [(m, p)]
  | (k, v) :: rest, m, p =>
      if k = m then (m, p) :: rest else (k, v) :: setAssocQ rest m p

/-- SuperOpportunityFinder._add_to_rates_dict: if the exchange already has an
inner dict, set the market price there, else create a singleton inner dict. -/
def addToRatesDict (rates : List (String × List (String × ℚ)))
    (exchange_name market_name : String) (price : ℚ) :
    List (String × List (String × ℚ)) :=
  match rates with
  | [] => [(exchange_name, [(market_name, price)])]
  | (k, inner) :: rest =>
      if k = exchange_name then (k, setAssocQ inner market_name price) :: rest
      else (k, inner) :: addToRatesDict rest exchange_name market_name price

/-- Lookup on the inner dict of the USD rate table. -/
def lookupAssocQ : List (String × ℚ) → String → Option ℚ
  | [], _ => none
  | (k, v) :: rest, m => if k = m then some v else lookupAssocQ rest m

/-- Lookup usd_rates[exchange][market]. -/
def lookupRates (rates : List (String × List (String × ℚ))) (exchange_name market_name : String) :
    Option ℚ :=
  match rates with
  | [] => none
  | (k, inner) :: rest =>
      if k = exchange_name then lookupAssocQ inner market_name
      else lookupRates rest exchange_name market_name

/-! ## Multi-market orchestrator: SuperOpportunityFinder -/

/-- The mutable fields of a SuperOpportunityFinder instance that the claims
are about: self.collections, self.rate_limited_exchanges, self.usd_rates and
self.opportunity_id. -/
structure SuperState where
  collections : MarketCollection
  rate_limited : List String
  usd_rates : List (String × List (String × ℚ))
  opportunity_id : Nat
deriving DecidableEq

/-- The outcome the network produces for one fetch_order_book call: one of
the four caught ccxt exception classes, or an order book. -/
inductive RawOutcome where
  | ddos
  | timeout
  | exchangeError
  | notAvailable
  | book (ob : OrderBook)
deriving DecidableEq

/-- Whether a fetch outcome is one of the two transient failures
(ccxt.DDoSProtection or ccxt.RequestTimeout), for which
exchange_fetch_order_book returns (None, exchange_name). -/
def isTransientOutcome : RawOutcome → Bool
  | .ddos => true
  | .timeout => true
  | _ => false

/-- SuperOpportunityFinder.exchange_fetch_order_book.  Transient failures
return (None, exchange_name); an ExchangeError prunes the exchange from the
market and returns (None, None), as does ExchangeNotAvailable and an empty
order book; on success the best bid is recorded in the USD rate table when
market_name.find("USD") > 0 and (order_book, exchange_name) is returned. -/
def exchangeFetchOrderBook (st : SuperState) (exchange_name market_name : String)
    (out : RawOutcome) : SuperState × Option OrderBook × Option String :=
  match out with
  | .ddos => (st, none, some exchange_name)
  | .timeout => (st, none, some exchange_name)
  | .exchangeError =>
      ({ st with collections := removeExchangeFromMarket st.collections exchange_name market_name },
       none, none)
  | .notAvailable => (st, none, none)
  | .book ob =>
      match ob.bids, ob.asks with
      | [], _ => (st, none, none)
      | _ :: _, [] => (st, none, none)
      | b :: _, _ :: _ =>
          (if usdFindPos market_name then
            { st with usd_rates := addToRatesDict st.usd_rates exchange_name market_name b.price }
          else st, some ob, some exchange_name)

/-- A successful completion as seen by the loop in _find_opportunity: the
exchange name together with the top bid and top ask of its order book. -/
structure Entry where
  ex : String
  bid : BookEntry
  ask : BookEntry
deriving DecidableEq

/-- The entry an exchange contributes to the aggregation, if any: only a
fetch that produced an order book with at least one bid and one ask does. -/
def successEntry (outcome : String → RawOutcome) (e : String) : Option Entry :=
  match outcome e with
  | .book ob =>
      match ob.bids, ob.asks with
      | b :: _, a :: _ => some ⟨e, b, a⟩
      | _, _ => none
  | _ => none

/-- The successful completions of a round, in completion order. -/
def successEntries (outcome : String → RawOutcome) (order : List String) : List Entry :=
  order.filterMap (successEntry outcome)

/-- The bid update of one successful completion: replace only on a strictly
greater bid (if bid > opportunity["highest_bid"]["price"]). -/
def bidStep (q : PriceQuote) (x : Entry) : PriceQuote :=
  if q.price.blt (.fin x.bid.price) then ⟨.fin x.bid.price, some x.ex, x.bid.volume⟩ else q

/-- The ask update of one successful completion: replace only on a strictly
smaller ask (if ask < opportunity["lowest_ask"]["price"]). -/
def askStep (q : PriceQuote) (x : Entry) : PriceQuote :=
  if (EPrice.fin x.ask.price).blt q.price then ⟨.fin x.ask.price, some x.ex, x.ask.volume⟩ else q

/-- Running highest bid over a list of successful completions. -/
def bestBidFold (q : PriceQuote) (l : List Entry) : PriceQuote :=
  l.foldl bidStep q

/-- Running lowest ask over a list of successful completions. -/
def bestAskFold (q : PriceQuote) (l : List Entry) : PriceQuote :=
  l.foldl askStep q

/-- The update the body of the as_completed loop applies to the opportunity
for one successful (order_book, exchange_name) completion. -/
def updateOpp (opp : Opportunity) (exchange_name : String) (ob : OrderBook) : Opportunity :=
  match ob.bids, ob.asks with
  | b :: _, a :: _ =>
      let opp1 :=
        if opp.highest_bid.price.blt (.fin b.price) then
          { opp with highest_bid := ⟨.fin b.price, some exchange_name, b.volume⟩ }
        else opp
      if (EPrice.fin a.price).blt opp1.lowest_ask.price then
        { opp1 with lowest_ask := ⟨.fin a.price, some exchange_name, a.volume⟩ }
      else opp1
  | _, _ => opp

/-- How the as_completed loop of _find_opportunity ends. -/
inductive ProcessResult where
  | done (opp : Opportunity)
  | restart (newList : List String)
  | degraded (opp : Opportunity)
deriving DecidableEq

/-- Projection used to state facts about a finished loop. -/
def ProcessResult.doneOpp : ProcessResult → Option Opportunity
  | .done opp => some opp
  | _ => none

/-- The as_completed loop of _find_opportunity, processing completions in
completion order.  A (None, None) completion is skipped.  A (None, name)
completion is a transient failure: the exchange is added to the rate-limit
tracker and, after the cooldown, removed again if still present; then the
loop either restarts the whole market with the current collection entry, or,
when the market has disappeared from the collection, returns the opportunity
accumulated so far.  A successful completion updates the opportunity. -/
def processCompletions (market_name : String) (outcome : String → RawOutcome) :
    List String → SuperState → Opportunity → SuperState × ProcessResult
  | [], st, opp => (st, .done opp)
  | name :: rest, st, opp =>
      match exchangeFetchOrderBook st name market_name (outcome name) with
      | (st1, obOpt, nameOpt) =>
          match nameOpt with
          | none => processCompletions market_name outcome rest st1 opp
          | some exchange_name =>
              match obOpt with
              | some ob => processCompletions market_name outcome rest st1 (updateOpp opp exchange_name ob)
              | none =>
                  let rl1 := if st1.rate_limited.contains exchange_name then st1.rate_limited
                             else exchange_name :: st1.rate_limited
                  let rl2 := if rl1.contains exchange_name then rl1.erase exchange_name else rl1
                  let st2 : SuperState := { st1 with rate_limited := rl2 }
                  match lookupCollection st2.collections market_name with
                  | some newList => (st2, .restart newList)
                  | none => (st2, .degraded opp)

/-- One attempted round of _find_opportunity for a market: the contents of
the shared rate-limit tracker as the round begins (concurrent resolutions of
other markets mutate it during awaits), the network outcome each exchange
would produce this round, and the order in which the launched fetches
complete. -/
structure Round where
  rlSnapshot : List String
  outcome : String → RawOutcome
  order : List String

/-- SuperOpportunityFinder._find_opportunity.  Each call bumps the shared
opportunity id and takes it as the id of this attempt.  If any exchange of
the list the call was given is in the rate-limit tracker, the call waits and
restarts itself with that same list.  Otherwise it creates the sentinel
opportunity and processes the completions of its fetches; a restart triggered
by a transient failure re-reads the collection entry of the market.  The
rounds list supplies one oracle per attempt; an empty rounds list means the
run is still retrying (the recursion of the code has no ceiling). -/
def findOpportunity (market_name : String) :
    SuperState → List String → List Round → SuperState × Option Opportunity
  | st, _, [] => (st, none)
  | st, exchange_list, round :: rest =>
      let st1 : SuperState :=
        { st with opportunity_id := st.opportunity_id + 1, rate_limited := round.rlSnapshot }
      if exchange_list.any (fun e => st1.rate_limited.contains e) then
        findOpportunity market_name st1 exchange_list rest
      else
        match processCompletions market_name round.outcome round.order st1
            (initialOpportunity market_name st1.opportunity_id) with
        | (st2, .done opp) => (st2, some opp)
        | (st2, .degraded opp) => (st2, some opp)
        | (st2, .restart newList) => findOpportunity market_name st2 newList rest

/-- Resolving a list of (market, exchange list) tasks, one after the other in
the order the resolutions complete, threading the shared state.  The rounds
oracle for each market is given by roundsFor. -/
def runMarketTasks (roundsFor : String → List Round) :
    SuperState → List (String × List String) → SuperState × List (Option Opportunity)
  | st, [] => (st, [])
  | st, (m, l) :: rest =>
      let r := findOpportunity m st l (roundsFor m)
      let r' := runMarketTasks roundsFor r.1 rest
      (r'.1, r.2 :: r'.2)

/-- The priority loop at the top of get_opportunities: for each market of
price_markets, read its current collection entry to launch its resolution,
then delete the market from the shared collection (collections is the same
object as self.collections). -/
def buildPriorityTasks :
    SuperState → List String → SuperState × List (String × List String)
  | st, [] => (st, [])
  | st, m :: rest =>
      let l := (lookupCollection st.collections m).getD []
      let st' : SuperState := { st with collections := delFromCollections st.collections m }
      let r := buildPriorityTasks st' rest
      (r.1, (m, l) :: r.2)

/-- SuperOpportunityFinder.get_opportunities, with the concurrent resolutions
serialised in completion order.  With price_markets given, the priority
markets are resolved first (their ask-price snapshots, returned alongside
their opportunities, are not modelled) and the remaining tasks are then built
from the collection as it stands; without price_markets one task per
collection entry is built.  The final closing of the exchange connections
touches none of the modelled state. -/
def getOpportunitiesSeq (st : SuperState) (price_markets : Option (List String))
    (roundsFor : String → List Round) : SuperState × List (Option Opportunity) :=
  match price_markets with
  | none => runMarketTasks roundsFor st st.collections
  | some pm =>
      let b := buildPriorityTasks st pm
      let r1 := runMarketTasks roundsFor b.1 b.2
      let r2 := runMarketTasks roundsFor r1.1 r1.1.collections
      (r2.1, r1.2 ++ r2.2)

/-- The monotonicity facts shared by the invariant claims: a (market,
exchange) pair absent from the Market Collection stays absent, a market
absent from the collection stays absent (entries are only ever removed,
never added), and a USD rate entry once present stays present (entries are
only ever appended or overwritten, never deleted). -/
def preservesState (st st' : SuperState) : Prop :=
  (∀ m e, pairMemB st.collections m e = false → pairMemB st'.collections m e = false) ∧
  (∀ m, lookupCollection st.collections m = none → lookupCollection st'.collections m = none) ∧
  (∀ e m, (lookupRates st.usd_rates e m).isSome = true →
    (lookupRates st'.usd_rates e m).isSome = true)

/-! ## Concrete inputs used by counterexamples and witnesses -/

/-- State for the C1 counterexample: one market listing one exchange. -/
def stC1 : SuperState := ⟨[("ETH/BTC", ["a"])], [], [], 0⟩

/-- Network for the C1 counterexample: exchange a quotes a best bid of -5,
below the -1 sentinel of the code. -/
def outcomeC1 : String → RawOutcome := fun _ => .book ⟨[⟨-5, 1⟩], [⟨1, 1⟩]⟩

/-- Network for the C1 witness. -/
def outcomeC1w : String → RawOutcome := fun e =>
  if e = "a" then .book ⟨[⟨100, 1⟩], [⟨101, 2⟩]⟩
  else if e = "b" then .book ⟨[⟨102, 3⟩], [⟨103, 4⟩]⟩
  else .notAvailable

/-- State for the C1 witness. -/
def stC1w : SuperState := ⟨[("ETH/BTC", ["a", "b"])], [], [], 0⟩

/-- Network for the C2 theorem: every fetch would succeed. -/
def envC2 : String → TickerResult := fun _ => .ok 100 101

/-- The failing input of C2: a handle that is not a ccxt.Exchange instance
(for example the bare string "kraken" passed with name=False). -/
def badHandleC2 : ExchangeHandle := ⟨"kraken", false⟩

/-- Network for the C3 counterexample: fetch_ticker raises. -/
def envC3 : String → TickerResult := fun _ => .err

/-- A well-formed exchange handle for C3. -/
def goodHandleC3 : ExchangeHandle := ⟨"binance", true⟩

/-- Network for the C3 witness. -/
def envC3w : String → TickerResult := fun e => if e = "binance" then .ok 10 11 else .err

/-- State for the C4 counterexample: the collection entry of the market has
already been updated to just exchange B. -/
def stC4 : SuperState := ⟨[("LTC/ETH", ["B"])], [], [], 0⟩

/-- Network for the C4 counterexample. -/
def outC4 : String → RawOutcome := fun e =>
  if e = "A" then .book ⟨[⟨5, 1⟩], [⟨6, 1⟩]⟩
  else if e = "B" then .book ⟨[⟨2, 1⟩], [⟨3, 1⟩]⟩
  else .notAvailable

/-- First round of the C4 counterexample: exchange A is rate limited when
the pre-fetch check runs, so the resolution restarts. -/
def r1C4 : Round := ⟨["A"], fun _ => .notAvailable, []⟩

/-- Second round of the C4 counterexample: the tracker has been cleared by
the concurrent cooldown remover; both stale exchanges answer. -/
def r2C4 : Round := ⟨[], outC4, ["A", "B"]⟩

/-- State for the C4 witness. -/
def stC4w : SuperState := ⟨[("M", ["A"])], [], [], 3⟩

/-- Round for the C4 witness: exchange A is in the tracker snapshot. -/
def rC4w : Round := ⟨["A"], fun _ => .notAvailable, []⟩

/-- State for the C5 witness: the pair is already absent. -/
def stC5w : SuperState := ⟨[("M", ["B"])], [], [], 0⟩

/-- Rounds oracle for the C5 witness. -/
def rfC5w : String → List Round := fun _ => [⟨[], fun _ => .notAvailable, []⟩]

/-- State for the C6 witness: a collection of two markets. -/
def stC6w : SuperState := ⟨[("A/B", ["x"]), ("C/D", ["y"])], [], [], 0⟩

/-- Rounds oracle for the C6 witness: each market resolves in one round with
no completions to process. -/
def rfC6w : String → List Round := fun _ => [⟨[], fun _ => .notAvailable, []⟩]

/-- State for the C7 witness: the Market Collection no longer lists the
market being resolved. -/
def stC7w : SuperState := ⟨[], [], [], 0⟩

/-- Network for the C7 witness: the only exchange is rate limited. -/
def outC7w : String → RawOutcome := fun _ => .ddos

/-- Round for the C7 witness. -/
def rC7w : Round := ⟨[], outC7w, ["A"]⟩

/-- State for the C8 theorems. -/
def stC8 : SuperState := ⟨[("SUSD/BTC", ["kraken"])], [], [], 0⟩

/-- Order book for the C8 theorems. -/
def obC8 : OrderBook := ⟨[⟨2, 1⟩], [⟨3, 1⟩]⟩

/-- State for the C8 witness. -/
def stC8w : SuperState := ⟨[("BTC/USD", ["kraken"])], [], [("kraken", [("BTC/USD", 5)])], 0⟩

/-- Rounds oracle for the C8 witness. -/
def rfC8w : String → List Round := fun _ => [⟨[], fun _ => .ddos, []⟩]

/-- State for the C10 witness. -/
def stC10w : SuperState := ⟨[("P/Q", ["x"]), ("R/S", ["y"])], [], [], 0⟩

/-- Rounds oracle for the C10 witness. -/
def rfC10w : String → List Round := fun _ => [⟨[], fun _ => .notAvailable, []⟩]

/-! ## Order lemmas for the extended price comparison -/

/-- Comparison of two finite prices is the rational comparison. -/
theorem EPrice.blt_fin_iff (a b : ℚ) : (EPrice.fin a).blt (.fin b) = true ↔ a < b := by
  simp [EPrice.blt]

/-- A price below a finite bound is below every larger finite bound. -/
theorem EPrice.blt_fin_trans :
    ∀ (p : EPrice) (a b : ℚ), p.blt (.fin a) = true → a < b → p.blt (.fin b) = true
  | .negInf, _, _, _, _ => rfl
  | .fin c, a, b, h1, h2 => by
      simp only [EPrice.blt, decide_eq_true_eq] at h1 ⊢
      exact lt_trans h1 h2
  | .posInf, a, _, h1, _ => by simp [EPrice.blt] at h1

/-- If p is not below the finite a but is below the finite b, then a < b. -/
theorem EPrice.lt_of_not_blt_of_blt :
    ∀ (p : EPrice) (a b : ℚ), p.blt (.fin a) = false → p.blt (.fin b) = true → a < b
  | .negInf, a, _, h1, _ => by simp [EPrice.blt] at h1
  | .fin c, a, b, h1, h2 => by
      simp only [EPrice.blt, decide_eq_false_iff_not, decide_eq_true_eq, not_lt] at h1 h2
      exact lt_of_le_of_lt h1 h2
  | .posInf, a, b, _, h2 => by simp [EPrice.blt] at h2

/-- A finite price below a bound stays below it when decreased. -/
theorem EPrice.fin_blt_trans :
    ∀ (p : EPrice) (a b : ℚ), (EPrice.fin a).blt p = true → b < a → (EPrice.fin b).blt p = true
  | .negInf, a, _, h1, _ => by simp [EPrice.blt] at h1
  | .fin c, a, b, h1, h2 => by
      simp only [EPrice.blt, decide_eq_true_eq] at h1 ⊢
      exact lt_trans h2 h1
  | .posInf, _, _, _, _ => rfl

/-- If the finite a is not below p but the finite b is, then b < a. -/
theorem EPrice.lt_of_fin_not_blt_of_fin_blt :
    ∀ (p : EPrice) (a b : ℚ), (EPrice.fin a).blt p = false → (EPrice.fin b).blt p = true → b < a
  | .negInf, a, b, _, h2 => by simp [EPrice.blt] at h2
  | .fin c, a, b, h1, h2 => by
      simp only [EPrice.blt, decide_eq_false_iff_not, decide_eq_true_eq, not_lt] at h1 h2
      exact lt_of_lt_of_le h2 h1
  | .posInf, a, b, h1, _ => by simp [EPrice.blt] at h1

/-! ## Characterisation of the two running folds -/

/-- The running highest bid over a list of successful completions: either no
completion strictly beats the starting quote and the fold returns it, or the
fold returns the quote of the first completion attaining the running maximum:
a completion strictly above the start, strictly above everything processed
before it, and at least everything processed after it. -/
theorem bestBidFold_char (l : List Entry) : ∀ (q : PriceQuote),
    (bestBidFold q l = q ∧ ∀ x ∈ l, q.price.blt (.fin x.bid.price) = false)
    ∨ ∃ pre x post, l = pre ++ x :: post ∧
        bestBidFold q l = ⟨.fin x.bid.price, some x.ex, x.bid.volume⟩ ∧
        q.price.blt (.fin x.bid.price) = true ∧
        (∀ y ∈ pre, y.bid.price < x.bid.price) ∧
        (∀ y ∈ post, ¬ x.bid.price < y.bid.price) := by
  induction l with
  | nil => intro q; left; exact ⟨rfl, by simp⟩
  | cons a rest ih =>
      intro q
      by_cases h : q.price.blt (.fin a.bid.price) = true
      · have hstep : bestBidFold q (a :: rest) =
            bestBidFold ⟨.fin a.bid.price, some a.ex, a.bid.volume⟩ rest := by
          simp [bestBidFold, bidStep, h]
        rcases ih ⟨.fin a.bid.price, some a.ex, a.bid.volume⟩ with ⟨heq, hall⟩ |
          ⟨pre, x, post, hl, heq, hblt, hpre, hpost⟩
        · right
          refine ⟨[], a, rest, rfl, ?_, h, by simp, ?_⟩
          · rw [hstep, heq]
          · intro y hy
            have hy' := hall y hy
            simpa [EPrice.blt] using hy'
        · right
          have hax : a.bid.price < x.bid.price := by
            simpa [EPrice.blt] using hblt
          refine ⟨a :: pre, x, post, by rw [hl]; rfl, ?_,
            EPrice.blt_fin_trans q.price a.bid.price x.bid.price h hax, ?_, hpost⟩
          · rw [hstep, heq]
          · intro y hy
            rcases List.mem_cons.mp hy with rfl | hy
            · exact hax
            · exact hpre y hy
      · have h' : q.price.blt (.fin a.bid.price) = false := by simpa using h
        have hstep : bestBidFold q (a :: rest) = bestBidFold q rest := by
          simp [bestBidFold, bidStep, h']
        rcases ih q with ⟨heq, hall⟩ | ⟨pre, x, post, hl, heq, hblt, hpre, hpost⟩
        · left
          refine ⟨by rw [hstep, heq], ?_⟩
          intro y hy
          rcases List.mem_cons.mp hy with rfl | hy
          · exact h'
          · exact hall y hy
        · right
          refine ⟨a :: pre, x, post, by rw [hl]; rfl, by rw [hstep, heq], hblt, ?_, hpost⟩
          intro y hy
          rcases List.mem_cons.mp hy with rfl | hy
          · exact EPrice.lt_of_not_blt_of_blt q.price y.bid.price x.bid.price h' hblt
          · exact hpre y hy

/-- The running lowest ask over a list of successful completions: either no
completion is strictly below the starting quote and the fold returns it, or
the fold returns the quote of the first completion attaining the running
minimum. -/
theorem bestAskFold_char (l : List Entry) : ∀ (q : PriceQuote),
    (bestAskFold q l = q ∧ ∀ x ∈ l, (EPrice.fin x.ask.price).blt q.price = false)
    ∨ ∃ pre x post, l = pre ++ x :: post ∧
        bestAskFold q l = ⟨.fin x.ask.price, some x.ex, x.ask.volume⟩ ∧
        (EPrice.fin x.ask.price).blt q.price = true ∧
        (∀ y ∈ pre, x.ask.price < y.ask.price) ∧
        (∀ y ∈ post, ¬ y.ask.price < x.ask.price) := by
  induction l with
  | nil => intro q; left; exact ⟨rfl, by simp⟩
  | cons a rest ih =>
      intro q
      by_cases h : (EPrice.fin a.ask.price).blt q.price = true
      · have hstep : bestAskFold q (a :: rest) =
            bestAskFold ⟨.fin a.ask.price, some a.ex, a.ask.volume⟩ rest := by
          simp [bestAskFold, askStep, h]
        rcases ih ⟨.fin a.ask.price, some a.ex, a.ask.volume⟩ with ⟨heq, hall⟩ |
          ⟨pre, x, post, hl, heq, hblt, hpre, hpost⟩
        · right
          refine ⟨[], a, rest, rfl, ?_, h, by simp, ?_⟩
          · rw [hstep, heq]
          · intro y hy
            have hy' := hall y hy
            simpa [EPrice.blt] using hy'
        · right
          have hax : x.ask.price < a.ask.price := by
            simpa [EPrice.blt] using hblt
          refine ⟨a :: pre, x, post, by rw [hl]; rfl, ?_,
            EPrice.fin_blt_trans q.price a.ask.price x.ask.price h hax, ?_, hpost⟩
          · rw [hstep, heq]
          · intro y hy
            rcases List.mem_cons.mp hy with rfl | hy
            · exact hax
            · exact hpre y hy
      · have h' : (EPrice.fin a.ask.price).blt q.price = false := by simpa using h
        have hstep : bestAskFold q (a :: rest) = bestAskFold q rest := by
          simp [bestAskFold, askStep, h']
        rcases ih q with ⟨heq, hall⟩ | ⟨pre, x, post, hl, heq, hblt, hpre, hpost⟩
        · left
          refine ⟨by rw [hstep, heq], ?_⟩
          intro y hy
          rcases List.mem_cons.mp hy with rfl | hy
          · exact h'
          · exact hall y hy
        · right
          refine ⟨a :: pre, x, post, by rw [hl]; rfl, by rw [hstep, heq], hblt, ?_, hpost⟩
          intro y hy
          rcases List.mem_cons.mp hy with rfl | hy
          · exact EPrice.lt_of_fin_not_blt_of_fin_blt q.price y.ask.price x.ask.price h' hblt
          · exact hpre y hy

/-! ## Lemmas about one loop iteration -/

/-- The loop body update acts independently on the two sides of the
opportunity and keeps its ticker and id. -/
theorem updateOpp_eq (opp : Opportunity) (e : String) (b : BookEntry) (bs : List BookEntry)
    (a : BookEntry) (al : List BookEntry) :
    updateOpp opp e ⟨b :: bs, a :: al⟩ =
      { highest_bid := bidStep opp.highest_bid ⟨e, b, a⟩
        lowest_ask := askStep opp.lowest_ask ⟨e, b, a⟩
        ticker := opp.ticker
        id := opp.id } := by
  by_cases h1 : opp.highest_bid.price.blt (EPrice.fin b.price) = true <;>
    by_cases h2 : (EPrice.fin a.price).blt opp.lowest_ask.price = true <;>
      simp [updateOpp, bidStep, askStep, h1, h2]

/-- The loop body update keeps the opportunity id. -/
theorem updateOpp_id (opp : Opportunity) (e : String) (ob : OrderBook) :
    (updateOpp opp e ob).id = opp.id := by
  rcases ob with ⟨bids, asks⟩
  cases bids with
  | nil => rfl
  | cons b bs =>
      cases asks with
      | nil => rfl
      | cons a al => rw [updateOpp_eq]

/-- exchange_fetch_order_book never touches the opportunity id counter. -/
theorem exchangeFetchOrderBook_opp_id (st : SuperState) (e m : String) (out : RawOutcome) :
    (exchangeFetchOrderBook st e m out).1.opportunity_id = st.opportunity_id := by
  cases out with
  | ddos => rfl
  | timeout => rfl
  | exchangeError => rfl
  | notAvailable => rfl
  | book ob =>
      rcases ob with ⟨bids, asks⟩
      cases bids with
      | nil => rfl
      | cons b bs =>
          cases asks with
          | nil => rfl
          | cons a al =>
              simp only [exchangeFetchOrderBook]
              split <;> rfl

/-! ## The as_completed loop without transient failures -/

/-- When no completion of the round is a transient failure, the loop runs to
the end and the final opportunity is exactly the pair of running folds over
the successful completions, with ticker and id untouched. -/
theorem processCompletions_no_transient (market_name : String) (outcome : String → RawOutcome)
    (order : List String) :
    ∀ (st : SuperState) (opp : Opportunity),
      (∀ e ∈ order, isTransientOutcome (outcome e) = false) →
      ∃ st' opp', processCompletions market_name outcome order st opp = (st', .done opp') ∧
        opp'.highest_bid = bestBidFold opp.highest_bid (successEntries outcome order) ∧
        opp'.lowest_ask = bestAskFold opp.lowest_ask (successEntries outcome order) ∧
        opp'.ticker = opp.ticker ∧ opp'.id = opp.id := by
  induction order with
  | nil =>
      intro st opp _
      exact ⟨st, opp, rfl, rfl, rfl, rfl, rfl⟩
  | cons e rest ih =>
      intro st opp h
      have he : isTransientOutcome (outcome e) = false := h e (List.mem_cons_self e rest)
      have hrest : ∀ x ∈ rest, isTransientOutcome (outcome x) = false :=
        fun x hx => h x (List.mem_cons_of_mem e hx)
      cases ho : outcome e with
      | ddos => rw [ho] at he; simp [isTransientOutcome] at he
      | timeout => rw [ho] at he; simp [isTransientOutcome] at he
      | exchangeError =>
          have hred : processCompletions market_name outcome (e :: rest) st opp =
              processCompletions market_name outcome rest
                { st with collections := removeExchangeFromMarket st.collections e market_name } opp := by
            simp [processCompletions, ho, exchangeFetchOrderBook]
          have hs : successEntries outcome (e :: rest) = successEntries outcome rest := by
            simp [successEntries, successEntry, ho]
          rw [hred, hs]
          exact ih _ opp hrest
      | notAvailable =>
          have hred : processCompletions market_name outcome (e :: rest) st opp =
              processCompletions market_name outcome rest st opp := by
            simp [processCompletions, ho, exchangeFetchOrderBook]
          have hs : successEntries outcome (e :: rest) = successEntries outcome rest := by
            simp [successEntries, successEntry, ho]
          rw [hred, hs]
          exact ih st opp hrest
      | book ob =>
          rcases ob with ⟨bids, asks⟩
          cases bids with
          | nil =>
              have hred : processCompletions market_name outcome (e :: rest) st opp =
                  processCompletions market_name outcome rest st opp := by
                simp [processCompletions, ho, exchangeFetchOrderBook]
              have hs : successEntries outcome (e :: rest) = successEntries outcome rest := by
                simp [successEntries, successEntry, ho]
              rw [hred, hs]
              exact ih st opp hrest
          | cons b bs =>
              cases asks with
              | nil =>
                  have hred : processCompletions market_name outcome (e :: rest) st opp =
                      processCompletions market_name outcome rest st opp := by
                    simp [processCompletions, ho, exchangeFetchOrderBook]
                  have hs : successEntries outcome (e :: rest) = successEntries outcome rest := by
                    simp [successEntries, successEntry, ho]
                  rw [hred, hs]
                  exact ih st opp hrest
              | cons a al =>
                  have hred : processCompletions market_name outcome (e :: rest) st opp =
                      processCompletions market_name outcome rest
                        (if usdFindPos market_name then
                          { st with usd_rates := addToRatesDict st.usd_rates e market_name b.price }
                        else st)
                        (updateOpp opp e ⟨b :: bs, a :: al⟩) := by
                    simp only [processCompletions, ho, exchangeFetchOrderBook]
                  have hs : successEntries outcome (e :: rest) =
                      ⟨e, b, a⟩ :: successEntries outcome rest := by
                    simp [successEntries, successEntry, ho]
                  rw [hred, hs]
                  rcases ih (if usdFindPos market_name then
                      { st with usd_rates := addToRatesDict st.usd_rates e market_name b.price }
                    else st) (updateOpp opp e ⟨b :: bs, a :: al⟩) hrest with
                    ⟨st', opp', hpr, hhb, hla, ht, hid⟩
                  refine ⟨st', opp', hpr, ?_, ?_, ?_, ?_⟩
                  · rw [hhb, updateOpp_eq]
                    simp [bestBidFold]
                  · rw [hla, updateOpp_eq]
                    simp [bestAskFold]
                  · rw [ht, updateOpp_eq]
                  · rw [hid, updateOpp_eq]

/-! ## Claim C1 -/

/-- C1, amended: for a resolution round none of whose completions is a
transient failure, and in which every reported best bid exceeds the -1
sentinel the code initialises the highest bid with, the returned opportunity
has highest_bid.price equal to the maximum best bid over the exchanges that
returned a non-empty order book and lowest_ask.price equal to the minimum
best ask over them; in either aggregate, equal prices do not replace, so the
exchange recorded is the first processed one attaining the extremum. -/
theorem c1_theorem (market_name : String) (i : Nat) (outcome : String → RawOutcome)
    (order : List String) (st : SuperState)
    (hnt : ∀ e ∈ order, isTransientOutcome (outcome e) = false)
    (hne : successEntries outcome order ≠ [])
    (hgt : ∀ x ∈ successEntries outcome order, (-1 : ℚ) < x.bid.price) :
    ∃ st' opp, processCompletions market_name outcome order st
        (initialOpportunity market_name i) = (st', .done opp) ∧
      (∃ pre x post, successEntries outcome order = pre ++ x :: post ∧
        opp.highest_bid.price = .fin x.bid.price ∧ opp.highest_bid.exchange = some x.ex ∧
        opp.highest_bid.volume = x.bid.volume ∧
        (∀ y ∈ successEntries outcome order, y.bid.price ≤ x.bid.price) ∧
        (∀ y ∈ pre, y.bid.price < x.bid.price)) ∧
      (∃ pre x post, successEntries outcome order = pre ++ x :: post ∧
        opp.lowest_ask.price = .fin x.ask.price ∧ opp.lowest_ask.exchange = some x.ex ∧
        opp.lowest_ask.volume = x.ask.volume ∧
        (∀ y ∈ successEntries outcome order, x.ask.price ≤ y.ask.price) ∧
        (∀ y ∈ pre, x.ask.price < y.ask.price)) := by
  rcases processCompletions_no_transient market_name outcome order st
      (initialOpportunity market_name i) hnt with ⟨st', opp', hpr, hhb, hla, _, _⟩
  refine ⟨st', opp', hpr, ?_, ?_⟩
  · rcases bestBidFold_char (successEntries outcome order)
        (initialOpportunity market_name i).highest_bid with
      ⟨_, hall⟩ | ⟨pre, x, post, hl, heq, _, hpre, hpost⟩
    · exfalso
      rcases List.exists_mem_of_ne_nil _ hne with ⟨x, hx⟩
      have hfalse := hall x hx
      simp only [initialOpportunity, EPrice.blt, decide_eq_false_iff_not] at hfalse
      exact hfalse (hgt x hx)
    · refine ⟨pre, x, post, hl, by rw [hhb, heq], by rw [hhb, heq], by rw [hhb, heq], ?_, hpre⟩
      intro y hy
      rw [hl] at hy
      rcases List.mem_append.mp hy with hy | hy
      · exact le_of_lt (hpre y hy)
      · rcases List.mem_cons.mp hy with rfl | hy
        · exact le_refl _
        · exact not_lt.mp (hpost y hy)
  · rcases bestAskFold_char (successEntries outcome order)
        (initialOpportunity market_name i).lowest_ask with
      ⟨_, hall⟩ | ⟨pre, x, post, hl, heq, _, hpre, hpost⟩
    · exfalso
      rcases List.exists_mem_of_ne_nil _ hne with ⟨x, hx⟩
      have hfalse := hall x hx
      simp [initialOpportunity, EPrice.blt] at hfalse
    · refine ⟨pre, x, post, hl, by rw [hla, heq], by rw [hla, heq], by rw [hla, heq], ?_, hpre⟩
      intro y hy
      rw [hl] at hy
      rcases List.mem_append.mp hy with hy | hy
      · exact le_of_lt (hpre y hy)
      · rcases List.mem_cons.mp hy with rfl | hy
        · exact le_refl _
        · exact not_lt.mp (hpost y hy)

/-- C1 counterexample to the claim as stated: a single exchange returns a
non-empty order book whose best bid is -5, strictly below the -1 sentinel, so
the resolved highest_bid.price stays at the sentinel -1 instead of the
maximum best bid -5 among exchanges that returned a non-empty order book (and
no exchange is recorded for the bid side at all). -/
theorem c1_counterexample :
    successEntries outcomeC1 ["a"] = [⟨"a", ⟨-5, 1⟩, ⟨1, 1⟩⟩] ∧
    (processCompletions "ETH/BTC" outcomeC1 ["a"] stC1 (initialOpportunity "ETH/BTC" 1)).2 =
      .done { highest_bid := ⟨.fin (-1), none, 0⟩, lowest_ask := ⟨.fin 1, some "a", 1⟩,
              ticker := "ETH/BTC", id := 1 } ∧
    EPrice.fin (-1) ≠ EPrice.fin (-5) := by decide

/-- C1 witness: the amended theorem applied to a concrete two-exchange round
(bids 100 and 102, asks 101 and 103). -/
theorem c1_witness :
    ∃ st' opp, processCompletions "ETH/BTC" outcomeC1w ["a", "b"] stC1w
        (initialOpportunity "ETH/BTC" 1) = (st', .done opp) ∧
      (∃ pre x post, successEntries outcomeC1w ["a", "b"] = pre ++ x :: post ∧
        opp.highest_bid.price = .fin x.bid.price ∧ opp.highest_bid.exchange = some x.ex ∧
        opp.highest_bid.volume = x.bid.volume ∧
        (∀ y ∈ successEntries outcomeC1w ["a", "b"], y.bid.price ≤ x.bid.price) ∧
        (∀ y ∈ pre, y.bid.price < x.bid.price)) ∧
      (∃ pre x post, successEntries outcomeC1w ["a", "b"] = pre ++ x :: post ∧
        opp.lowest_ask.price = .fin x.ask.price ∧ opp.lowest_ask.exchange = some x.ex ∧
        opp.lowest_ask.volume = x.ask.volume ∧
        (∀ y ∈ successEntries outcomeC1w ["a", "b"], x.ask.price ≤ y.ask.price) ∧
        (∀ y ∈ pre, x.ask.price < y.ask.price)) :=
  c1_theorem "ETH/BTC" 1 outcomeC1w ["a", "b"] stC1w (by decide) (by decide) (by decide)

/-! ## Claim C2 -/

/-- C2: evaluating the code at the failing input.  With an exchange handle
that is not a ccxt Exchange instance, the _test_bid_and_ask task raises the
ValueError (its effect record shows it ended in raisedValueError and never
opened a connection), yet find_min_max returns its normal snapshot dict with
the sentinel values, because the awaited asyncio.wait stores task exceptions
without re-raising them.  The invalid-capability error therefore does not
propagate to the caller and does not terminate the invocation. -/
theorem c2_theorem :
    (runTestTasks envC2 initialFinderState [badHandleC2]).2 =
      [⟨0, 0, .raisedValueError⟩] ∧
    findMinMax envC2 "BTC/USD" [badHandleC2] =
      ⟨⟨.fin (-1), none⟩, ⟨.posInf, none⟩, "BTC/USD"⟩ := by decide

/-! ## Claim C3 -/

/-- C3 counterexample to the claim as stated: a valid handle whose
fetch_ticker raises opens its connection (opens = 1) but never reaches
exchange.close() (closes = 0), so a connection the resolver opened is not
closed on a failing fetch outcome. -/
theorem c3_counterexample :
    (runTestTasks envC3 initialFinderState [goodHandleC3]).2 =
      [⟨1, 0, .raisedFetchError⟩] ∧ (0 : Nat) ≠ 1 := by decide

/-- C3, amended: in a single-market resolution every task closes its
exchange connection at most once; a task that completes normally opened the
connection exactly once and closed it exactly once, while a task that ended
in a raised exception (invalid handle or failing fetch) never runs
exchange.close() at all. -/
theorem c3_theorem (env : String → TickerResult) (l : List ExchangeHandle) :
    ∀ (st : FinderState), ∀ eff ∈ (runTestTasks env st l).2,
      eff.closes ≤ 1 ∧
      (eff.outcome = .completed → eff.opens = 1 ∧ eff.closes = 1) ∧
      (eff.outcome ≠ .completed → eff.closes = 0) := by
  induction l with
  | nil => intro st eff h; simp [runTestTasks] at h
  | cons ex rest ih =>
      intro st eff h
      have hcons : (runTestTasks env st (ex :: rest)).2 =
          (testBidAndAsk env ex st).2 ::
            (runTestTasks env (testBidAndAsk env ex st).1 rest).2 := rfl
      rw [hcons] at h
      rcases List.mem_cons.mp h with heff | htail
      · rw [heff]
        by_cases hx : ex.isCcxtExchange = false
        · simp [testBidAndAsk, hx]
        · cases henv : env ex.id with
          | err => simp [testBidAndAsk, hx, henv]
          | ok bid ask => simp [testBidAndAsk, hx, henv]
      · exact ih _ eff htail

/-- C3 witness: the amended theorem applied to the effect of a concrete
successful task. -/
theorem c3_witness :
    (⟨1, 1, TaskOutcome.completed⟩ : TaskEffect).closes ≤ 1 ∧
    ((⟨1, 1, TaskOutcome.completed⟩ : TaskEffect).outcome = .completed →
      (⟨1, 1, TaskOutcome.completed⟩ : TaskEffect).opens = 1 ∧
      (⟨1, 1, TaskOutcome.completed⟩ : TaskEffect).closes = 1) ∧
    ((⟨1, 1, TaskOutcome.completed⟩ : TaskEffect).outcome ≠ .completed →
      (⟨1, 1, TaskOutcome.completed⟩ : TaskEffect).closes = 0) :=
  c3_theorem envC3w [⟨"binance", true⟩] initialFinderState ⟨1, 1, .completed⟩ (by decide)

/-! ## Claim C9 -/

/-- C9 counterexample to the claim as stated: both resolvers initialise the
highest bid with the finite sentinel -1, not with negative infinity. -/
theorem c9_counterexample :
    (initialOpportunity "BTC/USD" 1).highest_bid.price = .fin (-1) ∧
    (initialOpportunity "BTC/USD" 1).highest_bid.price ≠ .negInf ∧
    initialFinderState.highest_bid.price = .fin (-1) ∧
    initialFinderState.highest_bid.price ≠ .negInf := by decide

/-- C9, amended: in both resolvers the opportunity starts from sentinel
values highest_bid.price = -1 (not negative infinity), lowest_ask.price =
positive infinity, and no exchange recorded in either field. -/
theorem c9_theorem (market_name : String) (i : Nat) :
    (initialOpportunity market_name i).highest_bid.price = .fin (-1) ∧
    (initialOpportunity market_name i).highest_bid.exchange = none ∧
    (initialOpportunity market_name i).lowest_ask.price = .posInf ∧
    (initialOpportunity market_name i).lowest_ask.exchange = none ∧
    initialFinderState.highest_bid.price = .fin (-1) ∧
    initialFinderState.highest_bid.exchange = none ∧
    initialFinderState.lowest_ask.price = .posInf ∧
    initialFinderState.lowest_ask.exchange = none :=
  ⟨rfl, rfl, rfl, rfl, rfl, rfl, rfl, rfl⟩

/-! ## Claim C4 -/

/-- C4 counterexample to the claim as stated: the collection entry of market
LTC/ETH is ["B"] throughout the run (the final state's collection is
unchanged), and the first round restarts because exchange A is in the
rate-limit tracker snapshot; yet the restarted resolution still fetches the
stale launch list and the returned opportunity records exchange A, which the
current exchange list of the market does not contain.  A restart with the
updated list would have fetched B alone.  The single-round run returning
none shows round one indeed only restarted. -/
theorem c4_counterexample :
    (findOpportunity "LTC/ETH" stC4 ["A", "B"] [r1C4, r2C4]).2 =
      some { highest_bid := ⟨.fin 5, some "A", 1⟩, lowest_ask := ⟨.fin 3, some "B", 1⟩,
             ticker := "LTC/ETH", id := 2 } ∧
    (findOpportunity "LTC/ETH" stC4 ["A", "B"] [r1C4]).2 = none ∧
    lookupCollection stC4.collections "LTC/ETH" = some ["B"] ∧
    (findOpportunity "LTC/ETH" stC4 ["A", "B"] [r1C4, r2C4]).1.collections = stC4.collections ∧
    (["B"] : List String).contains "A" = false := by decide

/-- C4, amended: when an exchange of the list the call was given is in the
rate-limit tracker as the pre-fetch check runs, the resolution waits and
fully restarts for the market, but it passes the very exchange list it was
launched with (the stale list); only a restart triggered by a transient
fetch failure re-reads the collection entry of the market. -/
theorem c4_theorem (market_name : String) (st : SuperState) (exchange_list : List String)
    (round : Round) (rest : List Round)
    (h : exchange_list.any (fun e => round.rlSnapshot.contains e) = true) :
    findOpportunity market_name st exchange_list (round :: rest) =
      findOpportunity market_name
        { st with opportunity_id := st.opportunity_id + 1, rate_limited := round.rlSnapshot }
        exchange_list rest := by
  simp only [findOpportunity]
  split
  · rfl
  · next hcond => exact absurd h hcond

/-- C4 witness: the amended theorem applied to a concrete rate-limited
round. -/
theorem c4_witness :
    findOpportunity "M" stC4w ["A"] [rC4w] =
      findOpportunity "M"
        { stC4w with opportunity_id := stC4w.opportunity_id + 1, rate_limited := rC4w.rlSnapshot }
        ["A"] [] :=
  c4_theorem "M" stC4w ["A"] rC4w [] (by decide)

/-! ## Claim C7 -/

/-- C7: when a transient completion is processed while the market is no
longer present in the Market Collection at all, the loop does not fail: it
returns the opportunity accumulated so far as a degraded result (first
conjunct), and _find_opportunity hands a degraded loop result to its caller
as a valid opportunity (second conjunct). -/
theorem c7_theorem :
    (∀ (market_name : String) (outcome : String → RawOutcome) (st : SuperState)
        (e : String) (rest : List String) (opp : Opportunity),
      isTransientOutcome (outcome e) = true →
      lookupCollection st.collections market_name = none →
      ∃ rl, processCompletions market_name outcome (e :: rest) st opp =
        ({ st with rate_limited := rl }, .degraded opp)) ∧
    (∀ (market_name : String) (st : SuperState) (exchange_list : List String)
        (round : Round) (rest : List Round) (st2 : SuperState) (opp : Opportunity),
      exchange_list.any (fun x => round.rlSnapshot.contains x) = false →
      processCompletions market_name round.outcome round.order
        { st with opportunity_id := st.opportunity_id + 1, rate_limited := round.rlSnapshot }
        (initialOpportunity market_name (st.opportunity_id + 1)) = (st2, .degraded opp) →
      findOpportunity market_name st exchange_list (round :: rest) = (st2, some opp)) := by
  constructor
  · intro market_name outcome st e rest opp h1 h2
    cases ho : outcome e with
    | ddos =>
        by_cases hm : e ∈ st.rate_limited
        · exact ⟨st.rate_limited.erase e, by
            simp [processCompletions, exchangeFetchOrderBook, ho, h2, hm]⟩
        · exact ⟨(e :: st.rate_limited).erase e, by
            simp [processCompletions, exchangeFetchOrderBook, ho, h2, hm]⟩
    | timeout =>
        by_cases hm : e ∈ st.rate_limited
        · exact ⟨st.rate_limited.erase e, by
            simp [processCompletions, exchangeFetchOrderBook, ho, h2, hm]⟩
        · exact ⟨(e :: st.rate_limited).erase e, by
            simp [processCompletions, exchangeFetchOrderBook, ho, h2, hm]⟩
    | exchangeError => rw [ho] at h1; simp [isTransientOutcome] at h1
    | notAvailable => rw [ho] at h1; simp [isTransientOutcome] at h1
    | book ob => rw [ho] at h1; simp [isTransientOutcome] at h1
  · intro market_name st exchange_list round rest st2 opp h1 h2
    simp only [findOpportunity]
    split
    · next hcond => exact absurd hcond (by simpa using h1)
    · rw [h2]

/-- C7 witness: the theorem applied to a concrete run in which the only
exchange is rate limited and the collection no longer lists the market. -/
theorem c7_witness :
    (∃ rl, processCompletions "M" outC7w ["A"] stC7w (initialOpportunity "M" 1) =
      ({ stC7w with rate_limited := rl }, .degraded (initialOpportunity "M" 1))) ∧
    findOpportunity "M" stC7w ["A"] [rC7w] =
      (⟨[], [], [], 1⟩, some (initialOpportunity "M" 1)) :=
  ⟨c7_theorem.1 "M" outC7w stC7w "A" [] (initialOpportunity "M" 1) (by decide) (by decide),
   c7_theorem.2 "M" stC7w ["A"] rC7w [] ⟨[], [], [], 1⟩ (initialOpportunity "M" 1)
     (by decide) (by decide)⟩

/-! ## Monotonicity of the shared collections -/

/-- Absence of a market key means no entry carries that key. -/
theorem lookup_none_iff (c : MarketCollection) (m : String) :
    lookupCollection c m = none ↔ ∀ p ∈ c, p.1 ≠ m := by
  induction c with
  | nil => simp [lookupCollection]
  | cons p rest ih =>
      rcases p with ⟨k, l⟩
      by_cases hk : k = m
      · subst hk; simp [lookupCollection]
      · simp [lookupCollection, hk, ih]

/-- Pruning an exchange from a market never makes a (market, exchange) pair
appear. -/
theorem pairMemB_remove (c : MarketCollection) (E M m e : String)
    (h : pairMemB (removeExchangeFromMarket c E M) m e = true) :
    pairMemB c m e = true := by
  simp only [pairMemB, List.any_eq_true] at h ⊢
  rcases h with ⟨p, hp, hcond⟩
  rw [removeExchangeFromMarket] at hp
  rcases List.mem_filterMap.mp hp with ⟨q, hq, hfq⟩
  by_cases hk : q.1 = M
  · rw [if_pos hk] at hfq
    by_cases hl : q.2.filter (fun x => x != E) = []
    · rw [if_pos hl] at hfq; cases hfq
    · rw [if_neg hl] at hfq
      injection hfq with hfq
      refine ⟨q, hq, ?_⟩
      rw [← hfq] at hcond
      simp only [Bool.and_eq_true] at hcond ⊢
      refine ⟨hcond.1, ?_⟩
      have he : e ∈ q.2.filter (fun x => x != E) := by simpa using hcond.2
      have he' : e ∈ q.2 := (List.mem_filter.mp he).1
      simpa using he'
  · rw [if_neg hk] at hfq
    injection hfq with hfq
    rw [← hfq] at hcond
    exact ⟨q, hq, hcond⟩

/-- Pruning an exchange from a market never makes a market key appear. -/
theorem lookup_remove_none (c : MarketCollection) (E M m : String)
    (h : lookupCollection c m = none) :
    lookupCollection (removeExchangeFromMarket c E M) m = none := by
  rw [lookup_none_iff] at h ⊢
  intro p hp
  rw [removeExchangeFromMarket] at hp
  rcases List.mem_filterMap.mp hp with ⟨q, hq, hfq⟩
  by_cases hk : q.1 = M
  · rw [if_pos hk] at hfq
    by_cases hl : q.2.filter (fun x => x != E) = []
    · rw [if_pos hl] at hfq; cases hfq
    · rw [if_neg hl] at hfq
      injection hfq with hfq
      rw [← hfq]
      rw [hk]
      exact hk ▸ h q hq
  · rw [if_neg hk] at hfq
    injection hfq with hfq
    rw [← hfq]
    exact h q hq

/-- Deleting a market key never makes a (market, exchange) pair appear. -/
theorem pairMemB_del (c : MarketCollection) (M m e : String)
    (h : pairMemB (delFromCollections c M) m e = true) :
    pairMemB c m e = true := by
  simp only [pairMemB, List.any_eq_true] at h ⊢
  rcases h with ⟨p, hp, hc⟩
  exact ⟨p, List.mem_of_mem_filter hp, hc⟩

/-- Deleting a market key never makes a market key appear. -/
theorem lookup_del_none (c : MarketCollection) (M m : String)
    (h : lookupCollection c m = none) :
    lookupCollection (delFromCollections c M) m = none := by
  rw [lookup_none_iff] at h ⊢
  intro p hp
  exact h p (List.mem_of_mem_filter hp)

/-- Deleting a market key removes it. -/
theorem lookup_del_self (c : MarketCollection) (M : String) :
    lookupCollection (delFromCollections c M) M = none := by
  rw [lookup_none_iff]
  intro p hp
  have hf := List.mem_filter.mp hp
  simpa using hf.2

/-- Setting one key of an inner rate dict keeps every present key present. -/
theorem lookupAssocQ_set_isSome (l : List (String × ℚ)) (m m' : String) (p : ℚ)
    (h : (lookupAssocQ l m).isSome = true) :
    (lookupAssocQ (setAssocQ l m' p) m).isSome = true := by
  induction l with
  | nil => simp [lookupAssocQ] at h
  | cons q rest ih =>
      rcases q with ⟨k, v⟩
      by_cases hk : k = m'
      · subst hk
        by_cases hm : k = m
        · subst hm; simp [lookupAssocQ, setAssocQ]
        · simp only [lookupAssocQ, setAssocQ, if_pos rfl, if_neg hm] at h ⊢
          exact h
      · by_cases hm : k = m
        · subst hm
          simp [lookupAssocQ, setAssocQ, hk]
        · simp only [lookupAssocQ, setAssocQ, if_neg hk, if_neg hm] at h ⊢
          exact ih h

/-- Recording a bid in the USD rate table keeps every present entry
present. -/
theorem lookupRates_add_isSome (r : List (String × List (String × ℚ))) (E M e m : String)
    (p : ℚ) (h : (lookupRates r e m).isSome = true) :
    (lookupRates (addToRatesDict r E M p) e m).isSome = true := by
  induction r with
  | nil => simp [lookupRates] at h
  | cons q rest ih =>
      rcases q with ⟨k, inner⟩
      by_cases hk : k = E
      · subst hk
        by_cases he : k = e
        · subst he
          simp only [lookupRates, addToRatesDict, if_pos rfl] at h ⊢
          exact lookupAssocQ_set_isSome inner m M p h
        · simp only [lookupRates, addToRatesDict, if_pos rfl, if_neg he] at h ⊢
          exact h
      · by_cases he : k = e
        · subst he
          simp only [lookupRates, addToRatesDict, if_neg hk, if_pos rfl] at h ⊢
          exact h
        · simp only [lookupRates, addToRatesDict, if_neg hk, if_neg he] at h ⊢
          exact ih h

/-- preservesState is reflexive. -/
theorem preservesState_refl (st : SuperState) : preservesState st st :=
  ⟨fun _ _ h => h, fun _ h => h, fun _ _ h => h⟩

/-- preservesState is transitive. -/
theorem preservesState_trans {a b c : SuperState} (h1 : preservesState a b)
    (h2 : preservesState b c) : preservesState a c :=
  ⟨fun m e h => h2.1 m e (h1.1 m e h), fun m h => h2.2.1 m (h1.2.1 m h),
   fun e m h => h2.2.2 e m (h1.2.2 e m h)⟩

/-- One fetch preserves the monotone state facts. -/
theorem exchangeFetchOrderBook_preserves (st : SuperState) (e m : String) (out : RawOutcome) :
    preservesState st (exchangeFetchOrderBook st e m out).1 := by
  cases out with
  | ddos => exact preservesState_refl st
  | timeout => exact preservesState_refl st
  | notAvailable => exact preservesState_refl st
  | exchangeError =>
      refine ⟨?_, ?_, fun _ _ h => h⟩
      · intro m' e' h
        simp only [exchangeFetchOrderBook]
        cases hb : pairMemB (removeExchangeFromMarket st.collections e m) m' e'
        · rfl
        · rw [pairMemB_remove _ _ _ _ _ hb] at h; cases h
      · intro m' h
        simp only [exchangeFetchOrderBook]
        exact lookup_remove_none _ _ _ _ h
  | book ob =>
      rcases ob with ⟨bids, asks⟩
      cases bids with
      | nil => exact preservesState_refl st
      | cons b bs =>
          cases asks with
          | nil => exact preservesState_refl st
          | cons a al =>
              simp only [exchangeFetchOrderBook]
              split
              · refine ⟨fun _ _ h => h, fun _ h => h, ?_⟩
                intro e' m' h
                exact lookupRates_add_isSome _ _ _ _ _ _ h
              · exact preservesState_refl st

/-- The as_completed loop preserves the monotone state facts. -/
theorem processCompletions_preserves (market_name : String) (outcome : String → RawOutcome)
    (order : List String) :
    ∀ st opp, preservesState st (processCompletions market_name outcome order st opp).1 := by
  induction order with
  | nil => intro st opp; exact preservesState_refl st
  | cons e rest ih =>
      intro st opp
      have hp := exchangeFetchOrderBook_preserves st e market_name (outcome e)
      simp only [processCompletions]
      rcases hfetch : exchangeFetchOrderBook st e market_name (outcome e) with ⟨st1, obOpt, nameOpt⟩
      rw [hfetch] at hp
      cases nameOpt with
      | none => exact preservesState_trans hp (ih st1 opp)
      | some ename =>
          cases obOpt with
          | some ob => exact preservesState_trans hp (ih st1 (updateOpp opp ename ob))
          | none =>
              cases hlook : lookupCollection st1.collections market_name with
              | some nl => simpa [hlook] using hp
              | none => simpa [hlook] using hp

/-- A whole market resolution preserves the monotone state facts. -/
theorem findOpportunity_preserves (market_name : String) (rounds : List Round) :
    ∀ st l, preservesState st (findOpportunity market_name st l rounds).1 := by
  induction rounds with
  | nil => intro st l; exact preservesState_refl st
  | cons round rest ih =>
      intro st l
      simp only [findOpportunity]
      split
      · refine preservesState_trans ?_
          (ih { st with opportunity_id := st.opportunity_id + 1, rate_limited := round.rlSnapshot } l)
        exact ⟨fun _ _ h => h, fun _ h => h, fun _ _ h => h⟩
      · rcases hpr : processCompletions market_name round.outcome round.order
            { st with opportunity_id := st.opportunity_id + 1, rate_limited := round.rlSnapshot }
            (initialOpportunity market_name (st.opportunity_id + 1)) with ⟨st2, res⟩
        have hp : preservesState st st2 := by
          have hq := processCompletions_preserves market_name round.outcome round.order
            { st with opportunity_id := st.opportunity_id + 1, rate_limited := round.rlSnapshot }
            (initialOpportunity market_name (st.opportunity_id + 1))
          rw [hpr] at hq
          exact hq
        cases res with
        | done opp => exact hp
        | degraded opp => exact hp
        | restart nl => exact preservesState_trans hp (ih st2 nl)

/-- Resolving a task list preserves the monotone state facts. -/
theorem runMarketTasks_preserves (roundsFor : String → List Round)
    (tasks : List (String × List String)) :
    ∀ st, preservesState st (runMarketTasks roundsFor st tasks).1 := by
  induction tasks with
  | nil => intro st; exact preservesState_refl st
  | cons t rest ih =>
      intro st
      rcases t with ⟨m, l⟩
      simp only [runMarketTasks]
      exact preservesState_trans (findOpportunity_preserves m (roundsFor m) st l) (ih _)

/-- Building the priority tasks (which deletes each priority market)
preserves the monotone state facts. -/
theorem buildPriorityTasks_preserves (pm : List String) :
    ∀ st, preservesState st (buildPriorityTasks st pm).1 := by
  induction pm with
  | nil => intro st; exact preservesState_refl st
  | cons m rest ih =>
      intro st
      simp only [buildPriorityTasks]
      refine preservesState_trans ?_ (ih _)
      refine ⟨?_, ?_, fun _ _ h => h⟩
      · intro m' e' h
        cases hb : pairMemB (delFromCollections st.collections m) m' e'
        · rfl
        · rw [pairMemB_del _ _ _ _ hb] at h; cases h
      · intro m' h
        exact lookup_del_none _ _ _ h

/-- A whole orchestrator invocation preserves the monotone state facts. -/
theorem getOpportunitiesSeq_preserves (st : SuperState) (pr : Option (List String))
    (rf : String → List Round) :
    preservesState st (getOpportunitiesSeq st pr rf).1 := by
  cases pr with
  | none => exact runMarketTasks_preserves rf st.collections st
  | some pm =>
      simp only [getOpportunitiesSeq]
      exact preservesState_trans (buildPriorityTasks_preserves pm st)
        (preservesState_trans (runMarketTasks_preserves rf _ _) (runMarketTasks_preserves rf _ _))

/-! ## Claim C5 -/

/-- Pruning an exchange from a market removes that very pair. -/
theorem pairMemB_remove_self (c : MarketCollection) (E M : String) :
    pairMemB (removeExchangeFromMarket c E M) M E = false := by
  cases hb : pairMemB (removeExchangeFromMarket c E M) M E
  · rfl
  · exfalso
    simp only [pairMemB, List.any_eq_true] at hb
    rcases hb with ⟨p, hp, hc⟩
    rw [removeExchangeFromMarket] at hp
    rcases List.mem_filterMap.mp hp with ⟨q, hq, hfq⟩
    rcases (Bool.and_eq_true _ _).mp hc with ⟨hc1, hc2⟩
    by_cases hk : q.1 = M
    · rw [if_pos hk] at hfq
      by_cases hl : q.2.filter (fun x => x != E) = []
      · rw [if_pos hl] at hfq; cases hfq
      · rw [if_neg hl] at hfq
        injection hfq with hfq
        rw [← hfq] at hc2
        have he : E ∈ q.2.filter (fun x => x != E) := by simpa using hc2
        have hne := (List.mem_filter.mp he).2
        simp at hne
    · rw [if_neg hk] at hfq
      injection hfq with hfq
      rw [← hfq] at hc1
      exact hk (by simpa using hc1)

/-- C5: a fetch that signals the market is unsupported (the caught
ExchangeError) removes the exchange from the collection entry of the market
(first conjunct), and once a (market, exchange) pair is absent from the
Market Collection it stays absent over any whole orchestrator invocation:
the collection is mutated by removal only, never addition (second
conjunct). -/
theorem c5_theorem :
    (∀ (st : SuperState) (e m : String),
      pairMemB ((exchangeFetchOrderBook st e m .exchangeError).1).collections m e = false) ∧
    (∀ (st : SuperState) (pr : Option (List String)) (rf : String → List Round) (m e : String),
      pairMemB st.collections m e = false →
      pairMemB ((getOpportunitiesSeq st pr rf).1).collections m e = false) := by
  constructor
  · intro st e m
    exact pairMemB_remove_self st.collections e m
  · intro st pr rf m e h
    exact (getOpportunitiesSeq_preserves st pr rf).1 m e h

/-- C5 witness: the theorem applied to a concrete state. -/
theorem c5_witness :
    pairMemB ((exchangeFetchOrderBook stC5w "B" "M" .exchangeError).1).collections "M" "B" = false ∧
    pairMemB ((getOpportunitiesSeq stC5w none rfC5w).1).collections "M" "A" = false :=
  ⟨c5_theorem.1 stC5w "B" "M", c5_theorem.2 stC5w none rfC5w "M" "A" (by decide)⟩

/-! ## Claim C8 -/

/-- Setting one key of an inner rate dict stores the value under that key. -/
theorem lookupAssocQ_set_self (l : List (String × ℚ)) (m : String) (p : ℚ) :
    lookupAssocQ (setAssocQ l m p) m = some p := by
  induction l with
  | nil => simp [setAssocQ, lookupAssocQ]
  | cons q rest ih =>
      rcases q with ⟨k, v⟩
      by_cases hk : k = m
      · subst hk; simp [setAssocQ, lookupAssocQ]
      · simp [setAssocQ, lookupAssocQ, hk, ih]

/-- Recording a bid stores it under the exchange and market. -/
theorem lookupRates_add_self (r : List (String × List (String × ℚ))) (E M : String) (p : ℚ) :
    lookupRates (addToRatesDict r E M p) E M = some p := by
  induction r with
  | nil => simp [addToRatesDict, lookupRates, lookupAssocQ]
  | cons q rest ih =>
      rcases q with ⟨k, inner⟩
      by_cases hk : k = E
      · subst hk
        simp [addToRatesDict, lookupRates, lookupAssocQ_set_self]
      · simp [addToRatesDict, lookupRates, hk, ih]

/-- C8, amended: a successful fetch (an order book with at least one bid and
one ask) records the observed best bid in the USD rate table under the
exchange and market exactly when the substring USD occurs in the market name
at a positive index (the condition market_name.find("USD") > 0), and leaves
the table untouched otherwise; and over a whole orchestrator invocation a
rate entry once present is never deleted (entries are appended or
overwritten only). -/
theorem c8_theorem :
    (∀ (st : SuperState) (e m : String) (b : BookEntry) (bs : List BookEntry)
        (a : BookEntry) (al : List BookEntry),
      (usdFindPos m = true →
        lookupRates ((exchangeFetchOrderBook st e m (.book ⟨b :: bs, a :: al⟩)).1).usd_rates e m =
          some b.price) ∧
      (usdFindPos m = false →
        ((exchangeFetchOrderBook st e m (.book ⟨b :: bs, a :: al⟩)).1).usd_rates = st.usd_rates)) ∧
    (∀ (st : SuperState) (pr : Option (List String)) (rf : String → List Round) (e m : String),
      (lookupRates st.usd_rates e m).isSome = true →
      (lookupRates ((getOpportunitiesSeq st pr rf).1).usd_rates e m).isSome = true) := by
  constructor
  · intro st e m b bs a al
    constructor
    · intro hu
      simp only [exchangeFetchOrderBook, hu, if_true]
      exact lookupRates_add_self st.usd_rates e m b.price
    · intro hu
      simp only [exchangeFetchOrderBook, hu]
      rfl
  · intro st pr rf e m h
    exact (getOpportunitiesSeq_preserves st pr rf).2.2 e m h

/-- C8 counterexample to the claim as stated: the market SUSD/BTC is not
quoted against a USD-denominated quote currency (its quote currency is BTC),
yet a successful fetch records its bid in the USD rate table, because the
code only tests that the substring USD occurs at a positive index of the
market name. -/
theorem c8_counterexample :
    usdQuotedSpec "SUSD/BTC" = false ∧
    usdFindPos "SUSD/BTC" = true ∧
    ((exchangeFetchOrderBook stC8 "kraken" "SUSD/BTC" (.book obC8)).1).usd_rates =
      [("kraken", [("SUSD/BTC", 2)])] := by decide

/-- C8 witness: the amended theorem applied to a concrete successful fetch
of a USD-quoted market and to a concrete invocation. -/
theorem c8_witness :
    lookupRates ((exchangeFetchOrderBook stC8w "kraken" "BTC/USD"
        (.book ⟨[⟨7, 1⟩], [⟨8, 1⟩]⟩)).1).usd_rates "kraken" "BTC/USD" = some (7 : ℚ) ∧
    (lookupRates ((getOpportunitiesSeq stC8w none rfC8w).1).usd_rates
      "kraken" "BTC/USD").isSome = true :=
  ⟨(c8_theorem.1 stC8w "kraken" "BTC/USD" ⟨7, 1⟩ [] ⟨8, 1⟩ []).1 (by decide),
   c8_theorem.2 stC8w none rfC8w "kraken" "BTC/USD" (by decide)⟩

/-! ## Claim C10 -/

/-- Every prioritised market is deleted from the collection while the
priority tasks are being built. -/
theorem buildPriorityTasks_lookup_none (pm : List String) :
    ∀ st, ∀ m ∈ pm, lookupCollection ((buildPriorityTasks st pm).1).collections m = none := by
  induction pm with
  | nil => intro st m hm; cases hm
  | cons q rest ih =>
      intro st m hm
      simp only [buildPriorityTasks]
      rcases List.mem_cons.mp hm with rfl | hm'
      · have habs : lookupCollection (delFromCollections st.collections m) m = none :=
          lookup_del_self _ _
        exact (buildPriorityTasks_preserves rest
          { st with collections := delFromCollections st.collections m }).2.1 m habs
      · exact ih { st with collections := delFromCollections st.collections q } m hm'

/-- C10: with a non-empty list of distinct priority markets all present in
the collection, every priority market has been deleted from the shared
Market Collection already when the priority task list has been built, before
any resolution of the non-prioritised markets begins (first conjunct), and
the markets are still absent after the whole invocation, since resolutions
only ever remove entries (second conjunct). -/
theorem c10_theorem (st : SuperState) (pm : List String) (rf : String → List Round)
    (_hne : pm ≠ []) (_hnd : pm.Nodup)
    (_hpres : ∀ m ∈ pm, (lookupCollection st.collections m).isSome = true) :
    (∀ m ∈ pm, lookupCollection ((buildPriorityTasks st pm).1).collections m = none) ∧
    (∀ m ∈ pm, lookupCollection ((getOpportunitiesSeq st (some pm) rf).1).collections m = none) := by
  refine ⟨buildPriorityTasks_lookup_none pm st, ?_⟩
  intro m hm
  have hb := buildPriorityTasks_lookup_none pm st m hm
  exact (preservesState_trans
    (runMarketTasks_preserves rf (buildPriorityTasks st pm).2 (buildPriorityTasks st pm).1)
    (runMarketTasks_preserves rf _ _)).2.1 m hb

/-- C10 witness: the theorem applied to a concrete two-market collection
with one priority market. -/
theorem c10_witness :
    (∀ m ∈ ["P/Q"], lookupCollection ((buildPriorityTasks stC10w ["P/Q"]).1).collections m = none) ∧
    (∀ m ∈ ["P/Q"],
      lookupCollection ((getOpportunitiesSeq stC10w (some ["P/Q"]) rfC10w).1).collections m = none) :=
  c10_theorem stC10w ["P/Q"] rfC10w (by decide) (by decide) (by decide)

/-! ## Claim C6 -/

/-- The as_completed loop never touches the shared opportunity id counter,
and a done or degraded result keeps the id the opportunity was created
with. -/
theorem processCompletions_id (market_name : String) (outcome : String → RawOutcome)
    (order : List String) :
    ∀ st opp,
      ((processCompletions market_name outcome order st opp).1).opportunity_id =
        st.opportunity_id ∧
      (∀ o, (processCompletions market_name outcome order st opp).2 = .done o → o.id = opp.id) ∧
      (∀ o, (processCompletions market_name outcome order st opp).2 = .degraded o →
        o.id = opp.id) := by
  induction order with
  | nil =>
      intro st opp
      refine ⟨rfl, ?_, ?_⟩
      · intro o ho
        injection ho with h'
        rw [h']
      · intro o ho
        exact ProcessResult.noConfusion ho
  | cons e rest ih =>
      intro st opp
      have hop := exchangeFetchOrderBook_opp_id st e market_name (outcome e)
      simp only [processCompletions]
      rcases hfetch : exchangeFetchOrderBook st e market_name (outcome e) with ⟨st1, obOpt, nameOpt⟩
      rw [hfetch] at hop
      cases nameOpt with
      | none =>
          rcases ih st1 opp with ⟨h1, h2, h3⟩
          exact ⟨by rw [h1]; exact hop, h2, h3⟩
      | some ename =>
          cases obOpt with
          | some ob =>
              rcases ih st1 (updateOpp opp ename ob) with ⟨h1, h2, h3⟩
              refine ⟨by rw [h1]; exact hop, ?_, ?_⟩
              · intro o ho
                rw [h2 o ho]
                exact updateOpp_id opp ename ob
              · intro o ho
                rw [h3 o ho]
                exact updateOpp_id opp ename ob
          | none =>
              cases hlook : lookupCollection st1.collections market_name with
              | some nl =>
                  refine ⟨by simpa [hlook] using hop, ?_, ?_⟩
                  · intro o ho
                    simp [hlook] at ho
                  · intro o ho
                    simp [hlook] at ho
              | none =>
                  refine ⟨by simpa [hlook] using hop, ?_, ?_⟩
                  · intro o ho
                    simp [hlook] at ho
                  · intro o ho
                    simp only [hlook] at ho
                    injection ho with h'
                    rw [h']
  
/-- Each call of _find_opportunity bumps the shared counter at least once;
when it returns an opportunity, the id of that opportunity is exactly the
final counter value, strictly above the counter at entry. -/
theorem findOpportunity_id (market_name : String) (rounds : List Round) :
    ∀ st l,
      st.opportunity_id ≤ ((findOpportunity market_name st l rounds).1).opportunity_id ∧
      (∀ opp, (findOpportunity market_name st l rounds).2 = some opp →
        opp.id = ((findOpportunity market_name st l rounds).1).opportunity_id ∧
        st.opportunity_id < ((findOpportunity market_name st l rounds).1).opportunity_id) := by
  induction rounds with
  | nil =>
      intro st l
      refine ⟨le_refl _, ?_⟩
      intro opp h
      exact Option.noConfusion h
  | cons round rest ih =>
      intro st l
      simp only [findOpportunity]
      split
      · rcases ih { st with opportunity_id := st.opportunity_id + 1, rate_limited := round.rlSnapshot } l with ⟨hle, hsome⟩
        refine ⟨le_trans (Nat.le_succ _) hle, ?_⟩
        intro opp h
        rcases hsome opp h with ⟨hid, _⟩
        exact ⟨hid, lt_of_lt_of_le (Nat.lt_succ_self _) hle⟩
      · rcases hpr : processCompletions market_name round.outcome round.order
            { st with opportunity_id := st.opportunity_id + 1, rate_limited := round.rlSnapshot }
            (initialOpportunity market_name (st.opportunity_id + 1)) with ⟨st2, res⟩
        have hid2 : st2.opportunity_id = st.opportunity_id + 1 := by
          have hq := (processCompletions_id market_name round.outcome round.order
            { st with opportunity_id := st.opportunity_id + 1, rate_limited := round.rlSnapshot }
            (initialOpportunity market_name (st.opportunity_id + 1))).1
          rw [hpr] at hq
          exact hq
        cases res with
        | done opp' =>
            have hdone := (processCompletions_id market_name round.outcome round.order
              { st with opportunity_id := st.opportunity_id + 1, rate_limited := round.rlSnapshot }
              (initialOpportunity market_name (st.opportunity_id + 1))).2.1 opp' (by rw [hpr])
            refine ⟨by rw [hid2]; exact Nat.le_succ _, ?_⟩
            intro opp h
            injection h with h'
            refine ⟨?_, by rw [hid2]; exact Nat.lt_succ_self _⟩
            rw [← h', hdone, hid2]
            rfl
        | degraded opp' =>
            have hdeg := (processCompletions_id market_name round.outcome round.order
              { st with opportunity_id := st.opportunity_id + 1, rate_limited := round.rlSnapshot }
              (initialOpportunity market_name (st.opportunity_id + 1))).2.2 opp' (by rw [hpr])
            refine ⟨by rw [hid2]; exact Nat.le_succ _, ?_⟩
            intro opp h
            injection h with h'
            refine ⟨?_, by rw [hid2]; exact Nat.lt_succ_self _⟩
            rw [← h', hdeg, hid2]
            rfl
        | restart nl =>
            rcases ih st2 nl with ⟨hle, hsome⟩
            refine ⟨le_trans (by rw [hid2]; exact Nat.le_succ _) hle, ?_⟩
            intro opp h
            rcases hsome opp h with ⟨hid, _⟩
            exact ⟨hid, lt_of_lt_of_le (by rw [hid2]; exact Nat.lt_succ_self _) hle⟩

/-- Resolving a task list: the shared counter never decreases, every task
yields exactly one (possibly absent) result, every returned opportunity id
lies strictly between the counter at entry and the final counter, and the
returned ids are strictly increasing in completion order. -/
theorem runMarketTasks_ids (roundsFor : String → List Round)
    (tasks : List (String × List String)) :
    ∀ st,
      st.opportunity_id ≤ ((runMarketTasks roundsFor st tasks).1).opportunity_id ∧
      (runMarketTasks roundsFor st tasks).2.length = tasks.length ∧
      (∀ i ∈ (runMarketTasks roundsFor st tasks).2.filterMap (fun o => Option.map Opportunity.id o),
        st.opportunity_id < i ∧ i ≤ ((runMarketTasks roundsFor st tasks).1).opportunity_id) ∧
      ((runMarketTasks roundsFor st tasks).2.filterMap
        (fun o => Option.map Opportunity.id o)).Pairwise (· < ·) := by
  induction tasks with
  | nil =>
      intro st
      exact ⟨le_refl _, rfl, by simp [runMarketTasks], by simp [runMarketTasks]⟩
  | cons t rest ih =>
      intro st
      rcases t with ⟨m, l⟩
      rcases hf : findOpportunity m st l (roundsFor m) with ⟨st1, r⟩
      have hfid := findOpportunity_id m (roundsFor m) st l
      rw [hf] at hfid
      have hrec := ih st1
      simp only [runMarketTasks, hf]
      cases r with
      | none =>
          refine ⟨le_trans hfid.1 hrec.1, by simp [hrec.2.1], ?_, ?_⟩
          · intro i hi
            simp only [List.filterMap_cons, Option.map_none'] at hi
            rcases hrec.2.2.1 i hi with ⟨h1, h2⟩
            exact ⟨lt_of_le_of_lt hfid.1 h1, h2⟩
          · simpa using hrec.2.2.2
      | some opp =>
          rcases hfid.2 opp rfl with ⟨hido, hlt⟩
          refine ⟨le_trans hfid.1 hrec.1, by simp [hrec.2.1], ?_, ?_⟩
          · intro i hi
            simp only [List.filterMap_cons, Option.map_some'] at hi
            rcases List.mem_cons.mp hi with rfl | hi'
            · exact ⟨by rw [hido]; exact hlt, by rw [hido]; exact hrec.1⟩
            · rcases hrec.2.2.1 i hi' with ⟨h1, h2⟩
              exact ⟨lt_trans hlt h1, h2⟩
          · simp only [List.filterMap_cons, Option.map_some']
            refine List.Pairwise.cons ?_ hrec.2.2.2
            intro j hj
            rcases hrec.2.2.1 j hj with ⟨h1, _⟩
            rw [hido]
            exact h1

/-- When every slot of a result list is filled, projecting the ids keeps the
length. -/
theorem filterMap_id_length (l : List (Option Opportunity))
    (h : ∀ r ∈ l, Option.isSome r = true) :
    (l.filterMap (fun o => Option.map Opportunity.id o)).length = l.length := by
  induction l with
  | nil => rfl
  | cons o rest ih =>
      cases o with
      | none => exact absurd (h none (List.mem_cons_self _ _)) (by simp)
      | some opp =>
          simp only [List.filterMap_cons, Option.map_some', List.length_cons]
          rw [ih (fun r hr => h r (List.mem_cons_of_mem _ hr))]

/-- C6: an orchestrator invocation over a collection of N markets yields
exactly N results; when each market resolution completes, the N yielded
opportunities carry ids that are strictly increasing in completion order
(drawn from the monotonically increasing shared counter), hence pairwise
distinct, whatever the completion order encoded in the per-market rounds. -/
theorem c6_theorem (st : SuperState) (rf : String → List Round)
    (h : ∀ r ∈ (getOpportunitiesSeq st none rf).2, Option.isSome r = true) :
    (getOpportunitiesSeq st none rf).2.length = st.collections.length ∧
    ((getOpportunitiesSeq st none rf).2.filterMap
      (fun o => Option.map Opportunity.id o)).length = st.collections.length ∧
    ((getOpportunitiesSeq st none rf).2.filterMap
      (fun o => Option.map Opportunity.id o)).Pairwise (· < ·) ∧
    ((getOpportunitiesSeq st none rf).2.filterMap
      (fun o => Option.map Opportunity.id o)).Nodup := by
  have hrun := runMarketTasks_ids rf st.collections st
  refine ⟨hrun.2.1, ?_, hrun.2.2.2, ?_⟩
  · rw [filterMap_id_length _ h]
    exact hrun.2.1
  · exact List.Pairwise.imp (fun hab => ne_of_lt hab) hrun.2.2.2

/-- C6 witness: the theorem applied to a concrete two-market collection in
which both resolutions complete. -/
theorem c6_witness :
    (getOpportunitiesSeq stC6w none rfC6w).2.length = stC6w.collections.length ∧
    ((getOpportunitiesSeq stC6w none rfC6w).2.filterMap
      (fun o => Option.map Opportunity.id o)).length = stC6w.collections.length ∧
    ((getOpportunitiesSeq stC6w none rfC6w).2.filterMap
      (fun o => Option.map Opportunity.id o)).Pairwise (· < ·) ∧
    ((getOpportunitiesSeq stC6w none rfC6w).2.filterMap
      (fun o => Option.map Opportunity.id o)).Nodup :=
  c6_theorem stC6w rfC6w (by decide)
